import Mathlib

/-!
Shallow embedding of the `chainy` crate (src/lib.rs): a minimal tamper-evident
append-only log.  Machine integers (`u64`, `u32`) are modelled as `Nat` with
explicit reductions modulo `2^32` where the SHA-1 core overflows; Rust strings
are modelled as `List Char`, with `rustLen` giving the UTF-8 byte length that
`str::len` returns.  Fallible operations return `Except`-style results; the
unchecked `self.chain[0]` index in `Chainy::validate` is modelled by a distinct
`panic` outcome.  Wall-clock reads (`SystemTime::now`) are modelled by passing
the timestamp as an explicit argument.
-/

set_option maxRecDepth 4000

/-- Truncation to 32 bits, modelling Rust `u32` wrap-around in the SHA-1 core. -/
def w32 (n : Nat) : Nat := n % 4294967296

/-- Left rotation of a 32-bit word (argument assumed `< 2^32`). -/
def rotl (k n : Nat) : Nat := w32 (n <<< k) ||| (n >>> (32 - k))

/-- The five-word running state of SHA-1. -/
structure SHAState where
  a : Nat
  b : Nat
  c : Nat
  d : Nat
  e : Nat
  deriving Repr, DecidableEq

/-- SHA-1 initialisation vector. -/
def shaInit : SHAState := ⟨0x67452301, 0xEFCDAB89, 0x98BADCFE, 0x10325476, 0xC3D2E1F0⟩

/-- Round function and constant of SHA-1, by round index. -/
def shaFK (i b c d : Nat) : Nat × Nat :=
  if i < 20 then ((b &&& c) ||| ((4294967295 ^^^ b) &&& d), 0x5A827999)
  else if i < 40 then (b ^^^ c ^^^ d, 0x6ED9EBA1)
  else if i < 60 then ((b &&& c) ||| (b &&& d) ||| (c &&& d), 0x8F1BBCDC)
  else (b ^^^ c ^^^ d, 0xCA62C1D6)

/-- One SHA-1 round on the expanded message schedule `w`. -/
def shaRound (w : List Nat) (s : SHAState) (i : Nat) : SHAState :=
  let fk := shaFK i s.b s.c s.d
  let temp := w32 (rotl 5 s.a + fk.1 + s.e + fk.2 + w.getD i 0)
  ⟨temp, s.a, rotl 30 s.b, s.c, s.d⟩

/-- Expand the 16 message words of one block to the 80-word schedule. -/
def shaExtend (ws : List Nat) : List Nat :=
  (List.range 64).foldl (fun w i =>
    w ++ [rotl 1 (w.getD (i + 13) 0 ^^^ w.getD (i + 8) 0 ^^^ w.getD (i + 2) 0 ^^^ w.getD i 0)]) ws

/-- Big-endian packing of bytes into 32-bit words. -/
def bytesToWords : List Nat → List Nat
  | b0 :: b1 :: b2 :: b3 :: rest => (b0 * 16777216 + b1 * 65536 + b2 * 256 + b3) :: bytesToWords rest
  | _ => []

/-- Compress one 64-byte block into the running state. -/
def shaCompress (s : SHAState) (block : List Nat) : SHAState :=
  let w := shaExtend (bytesToWords block)
  let t := (List.range 80).foldl (shaRound w) s
  ⟨w32 (s.a + t.a), w32 (s.b + t.b), w32 (s.c + t.c), w32 (s.d + t.d), w32 (s.e + t.e)⟩

/-- Split a byte list into 64-byte chunks (fuel-driven so the kernel can reduce it). -/
def chunks64 : Nat → List Nat → List (List Nat)
  | 0, _ => []
  | _, [] => []
  | fuel + 1, l => l.take 64 :: chunks64 fuel (l.drop 64)

/-- Big-endian bytes of a 64-bit length field. -/
def beBytes8 (n : Nat) : List Nat :=
  [(n >>> 56) % 256, (n >>> 48) % 256, (n >>> 40) % 256, (n >>> 32) % 256,
   (n >>> 24) % 256, (n >>> 16) % 256, (n >>> 8) % 256, n % 256]

/-- Big-endian bytes of a 32-bit word. -/
def wordBeBytes (w : Nat) : List Nat :=
  [(w >>> 24) % 256, (w >>> 16) % 256, (w >>> 8) % 256, w % 256]

/-- SHA-1 padding: `0x80`, zeros to 56 mod 64, then the 64-bit bit length. -/
def sha1pad (msg : List Nat) : List Nat :=
  msg ++ 128 :: List.replicate ((120 - (msg.length + 1) % 64) % 64) 0 ++ beBytes8 (msg.length * 8)

/-- SHA-1 of a byte sequence, as the 20 digest bytes. -/
def sha1 (msg : List Nat) : List Nat :=
  let padded := sha1pad msg
  let f := (chunks64 padded.length padded).foldl shaCompress shaInit
  wordBeBytes f.a ++ wordBeBytes f.b ++ wordBeBytes f.c ++ wordBeBytes f.d ++ wordBeBytes f.e

/-- Lowercase hexadecimal digit, as produced by Rust's `{:x}` formatting. -/
def hexDigitChar (d : Nat) : Char := if d < 10 then Char.ofNat (48 + d) else Char.ofNat (87 + d)

/-- Lowercase hexadecimal rendering of a byte sequence. -/
def hexEncode : List Nat → List Char
  | [] => []
  | b :: bs => hexDigitChar (b / 16) :: hexDigitChar (b % 16) :: hexEncode bs

/-- UTF-8 encoding of one character, as Rust `String` stores it. -/
def utf8Char (c : Char) : List Nat :=
  if c.toNat < 128 then [c.toNat]
  else if c.toNat < 2048 then [192 ||| (c.toNat >>> 6), 128 ||| (c.toNat &&& 63)]
  else if c.toNat < 65536 then
    [224 ||| (c.toNat >>> 12), 128 ||| ((c.toNat >>> 6) &&& 63), 128 ||| (c.toNat &&& 63)]
  else
    [240 ||| (c.toNat >>> 18), 128 ||| ((c.toNat >>> 12) &&& 63), 128 ||| ((c.toNat >>> 6) &&& 63),
     128 ||| (c.toNat &&& 63)]

/-- UTF-8 byte sequence of a string. -/
def strBytes : List Char → List Nat
  | [] => []
  | c :: cs => utf8Char c ++ strBytes cs

/-- Rust `str::len`: the UTF-8 byte length (not the character count). -/
def rustLen (s : List Char) : Nat := (strBytes s).length

/-- Decimal digit character. -/
def decDigitChar (d : Nat) : Char := Char.ofNat (48 + d)

/-- Decimal digits of `n`, most significant first (fuel-driven). -/
def natDecAux : Nat → Nat → List Char
  | 0, _ => []
  | fuel + 1, n => if n < 10 then [decDigitChar n] else natDecAux fuel (n / 10) ++ [decDigitChar (n % 10)]

/-- Rust `u64::to_string`: decimal digits of `n`. -/
def natDec (n : Nat) : List Char := natDecAux (n + 1) n

/-- `calculate_hash` from src/lib.rs: SHA-1 over the concatenation of the decimal
offset, the raw data, the decimal timestamp and the previous hash, rendered as
lowercase hex. -/
def calculate_hash (offset : Nat) (data : List Char) (timestamp : Nat)
    (previous_hash : List Char) : List Char :=
  hexEncode (sha1 (strBytes (natDec offset ++ data ++ natDec timestamp ++ previous_hash)))

/-- The error enum `ChainyError` from src/lib.rs. -/
inductive ChainyError where
  | BlockNotValid
  | ChainNotValid
  | DataTooLong
  deriving Repr, DecidableEq

/-- The dynamic error type `Box<dyn Error>`: either a `ChainyError` or a plain
message (the `&str` error produced by `ok_or` in `Chainy::entry`). -/
inductive DynError where
  | chainy (e : ChainyError)
  | strMsg (s : List Char)
  deriving Repr, DecidableEq

deriving instance DecidableEq for Except

/-- The `Block` struct from src/lib.rs. -/
structure Block where
  offset : Nat
  data : List Char
  timestamp : Nat
  hash : List Char
  previous_hash : List Char
  deriving Repr, DecidableEq

/-- A placeholder block used only as the default of `List.getD`. -/
def dummyBlock : Block := ⟨0, [], 0, [], []⟩

/-- `Block::new`: seals the block with the digest of its other four fields.  The
wall-clock read (`SystemTime::now`, the only failure source in the Rust code) is
modelled by the explicit `timestamp` argument, so construction is infallible here. -/
def Block.new (offset : Nat) (data : List Char) (previous_hash : List Char)
    (timestamp : Nat) : Block :=
  { offset := offset, data := data, timestamp := timestamp,
    hash := calculate_hash offset data timestamp previous_hash,
    previous_hash := previous_hash }

/-- `Block::validate`: recompute the digest and compare with the stored `hash`. -/
def Block.validate (b : Block) : Except ChainyError Unit :=
  if calculate_hash b.offset b.data b.timestamp b.previous_hash = b.hash then .ok ()
  else .error .BlockNotValid

/-- The hard-coded genesis anchor constant (SHA-1 of `GENESIS`). -/
def GENESIS_PREV : List Char := "ce02dec31ca49f3c8f149b3b931a0155121d2ca0".toList

/-- The `Chainy` struct from src/lib.rs. -/
structure Chainy where
  chain : List Block
  deriving Repr, DecidableEq

/-- `Chainy::new`: a chain holding only the genesis block.  `t` is the clock
reading taken inside `Block::new`. -/
def Chainy.new (t : Nat) : Chainy :=
  { chain := [Block.new 0 "GENESIS".toList GENESIS_PREV t] }

/-- `Chainy::entry`: mirrors the `&mut self` method by returning the (possibly
updated) chain together with the `Result`.  The length guard uses the UTF-8 byte
length, as Rust `str::len` does; the `usize → u64` conversion of the offset
cannot fail and is modelled as exact `Nat` arithmetic. -/
def Chainy.entry (c : Chainy) (data : List Char) (t : Nat) :
    Chainy × Except DynError Unit :=
  if rustLen data > 64 then (c, .error (.chainy .DataTooLong))
  else
    match c.chain.getLast? with
    | none => (c, .error (.strMsg "add block entry failed".toList))
    | some last =>
      ({ chain := c.chain ++ [Block.new (c.chain.length + 1) data last.hash t] }, .ok ())

/-- Outcome of `Chainy::validate`: success, an error return, or a Rust panic
(the unchecked `self.chain[0]` index on an empty chain). -/
inductive VRes where
  | ok
  | err (e : ChainyError)
  | panic
  deriving Repr, DecidableEq

/-- The `windows(2)` loop of `Chainy::validate`: for each adjacent pair, first the
later block's own hash check (propagating its `BlockNotValid`), then the linkage
check against the earlier block's hash. -/
def validateFrom (prev : Block) : List Block → VRes
  | [] => .ok
  | b :: rest =>
    match b.validate with
    | .error e => .err e
    | .ok _ => if prev.hash = b.previous_hash then validateFrom b rest else .err .ChainNotValid

/-- `Chainy::validate` from src/lib.rs.  On an empty chain the very first statement
`self.chain[0]` indexes out of bounds, which is modelled as `.panic`. -/
def Chainy.validate (c : Chainy) : VRes :=
  match c.chain with
  | [] => .panic
  | b0 :: rest =>
    if b0.offset = 0 then
      if b0.previous_hash = GENESIS_PREV then
        match b0.validate with
        | .error e => .err e
        | .ok _ => validateFrom b0 rest
      else .err .ChainNotValid
    else .err .ChainNotValid

/-- Outcome of `Chainy::load` on a decoded candidate chain. -/
inductive LoadRes where
  | ok (c : Chainy)
  | err (e : ChainyError)
  | panic
  deriving Repr, DecidableEq

/-- The validation step of `Chainy::load`: any validation error is collapsed to
`ChainNotValid`; success returns the decoded chain itself (file reading and JSON
decoding happen before this point). -/
def load_decoded (c : Chainy) : LoadRes :=
  match c.validate with
  | .ok => .ok c
  | .err _ => .err .ChainNotValid
  | .panic => .panic

/-- A sequence of `entry` calls, threading the chain state exactly as the Rust
`&mut self` receiver does (a failing call leaves the chain unchanged). -/
def applyEntries (c : Chainy) : List (List Char × Nat) → Chainy
  | [] => c
  | (d, t) :: es => applyEntries (c.entry d t).1 es

/-- Adjacent hash linkage along a block list. -/
def linked : List Block → Prop
  | [] => True
  | [_] => True
  | a :: b :: rest => a.hash = b.previous_hash ∧ linked (b :: rest)

/-- Replace the `hash` field of the block at index `i`, leaving every other field
of every block unchanged (the tampering move of the tamper-detection property). -/
def setHash : List Block → Nat → List Char → List Block
  | [], _, _ => []
  | b :: l, 0, h => { b with hash := h } :: l
  | b :: l, i + 1, h => b :: setHash l i h

/-- Boolean form of the per-block hash check. -/
def blockOkb (b : Block) : Bool :=
  match b.validate with
  | .ok _ => true
  | .error _ => false

/-- Boolean form of the pair walk of `Chainy::validate`: per-block hash checks and
hash linkage, with no condition whatsoever on the offsets. -/
def linksOkb : Block → List Block → Bool
  | _, [] => true
  | p, b :: rest => blockOkb b && decide (p.hash = b.previous_hash) && linksOkb b rest

/-- A small concrete chain: genesis plus one appended block (all clock reads 0). -/
def exampleChain : Chainy := applyEntries (Chainy.new 0) [("foo".toList, 0)]

/-- `exampleChain` with the genesis block's `hash` replaced by an unrelated value. -/
def tamperedChain : Chainy := ⟨setHash exampleChain.chain 0 (List.replicate 40 '0')⟩

/-- A block carrying offset 999 (not its position 1) whose hash is computed over
that wrong offset. -/
def weirdBlock : Block :=
  Block.new 999 "x".toList (Block.new 0 "GENESIS".toList GENESIS_PREV 0).hash 0

/-- A chain whose second block has offset 999: every hash and linkage check holds. -/
def weirdChain : Chainy := ⟨[Block.new 0 "GENESIS".toList GENESIS_PREV 0, weirdBlock]⟩

/-! ### JSON persistence, modelled from the spec

`Chainy::store` writes `serde_json::to_string(&self)` and `Chainy::load` decodes
with `serde_json::from_str`; serde's derived code and the file system are
external to the repository, so the persisted representation is modelled from
spec §6 here. -/

/-- Modelled from the spec: JSON string escaping as the serde_json serializer (an
external collaborator, not code of this repository) produces it for the
structured-text format of §6 — quote and backslash escaped with a backslash,
control characters with the conventional short escapes or `\u00XX`, every other
character kept verbatim. -/
def jsonEscChar (c : Char) : List Char :=
  if c = '"' then ['\\', '"']
  else if c = '\\' then ['\\', '\\']
  else if 32 ≤ c.toNat then [c]
  else if c.toNat = 8 then ['\\', 'b']
  else if c.toNat = 9 then ['\\', 't']
  else if c.toNat = 10 then ['\\', 'n']
  else if c.toNat = 12 then ['\\', 'f']
  else if c.toNat = 13 then ['\\', 'r']
  else ['\\', 'u', '0', '0', hexDigitChar (c.toNat / 16), hexDigitChar (c.toNat % 16)]

/-- Escape a whole string for JSON output. -/
def jsonEsc : List Char → List Char
  | [] => []
  | c :: cs => jsonEscChar c ++ jsonEsc cs

/-- Literal fragments of the persisted format (reference field order of §6). -/
def litOffset : List Char := '\x7b' :: "\"offset\":".toList

def litData : List Char := ',' :: "\"data\":\"".toList

def litTimestamp : List Char := ',' :: "\"timestamp\":".toList

def litHash : List Char := ',' :: "\"hash\":\"".toList

def litPrev : List Char := ',' :: "\"previous_hash\":\"".toList

def litChain : List Char := '\x7b' :: "\"chain\":[".toList

/-- Modelled from the spec: one persisted block object, fields in the reference
order `offset, data, timestamp, hash, previous_hash` (§6), no whitespace, as
`serde_json::to_string` emits it. -/
def encBlock (b : Block) : List Char :=
  litOffset ++ natDec b.offset
    ++ litData ++ jsonEsc b.data
    ++ '"' :: (litTimestamp ++ natDec b.timestamp
    ++ litHash ++ jsonEsc b.hash
    ++ '"' :: (litPrev ++ jsonEsc b.previous_hash
    ++ '"' :: ['\x7d']))

/-- Comma-separated block array elements. -/
def encBlocks : List Block → List Char
  | [] => []
  | [b] => encBlock b
  | b :: bs => encBlock b ++ ',' :: encBlocks bs

/-- Modelled from the spec: the full persisted file content for a chain — a single
JSON object with the one field `chain` holding the ordered block array (§6).
This is what `Chainy::store` writes through `Display`. -/
def encChainy (c : Chainy) : List Char := litChain ++ encBlocks c.chain ++ [']', '\x7d']

/-- Expect a literal fragment and return the remaining input. -/
def stripLit : List Char → List Char → Option (List Char)
  | [], s => some s
  | _ :: _, [] => none
  | p :: ps, c :: cs => if c = p then stripLit ps cs else none

/-- ASCII decimal digit test. -/
def isDigitCh (c : Char) : Bool := 48 ≤ c.toNat && c.toNat ≤ 57

/-- Value of a decimal digit string. -/
def digitsVal (ds : List Char) : Nat := ds.foldl (fun a c => a * 10 + (c.toNat - 48)) 0

/-- Parse a decimal number (one or more digits). -/
def parseNat (s : List Char) : Option (Nat × List Char) :=
  match s.takeWhile isDigitCh with
  | [] => none
  | ds => some (digitsVal ds, s.dropWhile isDigitCh)

/-- Value of a lowercase hexadecimal digit character. -/
def hexVal (c : Char) : Nat := if c.toNat ≤ 57 then c.toNat - 48 else c.toNat - 87

/-- Modelled from the spec: JSON string body parser (after the opening quote),
undoing the escapes the encoder produces, fuel-driven on the input length. -/
def parseStrCore : Nat → List Char → Option (List Char × List Char)
  | 0, _ => none
  | _ + 1, [] => none
  | fuel + 1, c :: rest =>
    if c = '"' then some ([], rest)
    else if c = '\\' then
      match rest with
      | [] => none
      | e :: rest2 =>
        if e = '"' then (parseStrCore fuel rest2).map (fun p => ('"' :: p.1, p.2))
        else if e = '\\' then (parseStrCore fuel rest2).map (fun p => ('\\' :: p.1, p.2))
        else if e = 'b' then (parseStrCore fuel rest2).map (fun p => (Char.ofNat 8 :: p.1, p.2))
        else if e = 't' then (parseStrCore fuel rest2).map (fun p => (Char.ofNat 9 :: p.1, p.2))
        else if e = 'n' then (parseStrCore fuel rest2).map (fun p => (Char.ofNat 10 :: p.1, p.2))
        else if e = 'f' then (parseStrCore fuel rest2).map (fun p => (Char.ofNat 12 :: p.1, p.2))
        else if e = 'r' then (parseStrCore fuel rest2).map (fun p => (Char.ofNat 13 :: p.1, p.2))
        else if e = 'u' then
          match rest2 with
          | '0' :: '0' :: h1 :: h2 :: rest3 =>
            (parseStrCore fuel rest3).map
              (fun p => (Char.ofNat (hexVal h1 * 16 + hexVal h2) :: p.1, p.2))
          | _ => none
        else none
    else (parseStrCore fuel rest).map (fun p => (c :: p.1, p.2))

/-- Modelled from the spec: parse one persisted block object. -/
def parseBlock (s : List Char) : Option (Block × List Char) := do
  let s1 ← stripLit litOffset s
  let (o, s2) ← parseNat s1
  let s3 ← stripLit litData s2
  let (d, s4) ← parseStrCore s3.length s3
  let s5 ← stripLit litTimestamp s4
  let (t, s6) ← parseNat s5
  let s7 ← stripLit litHash s6
  let (h, s8) ← parseStrCore s7.length s7
  let s9 ← stripLit litPrev s8
  let (p, s10) ← parseStrCore s9.length s9
  let s11 ← stripLit ['\x7d'] s10
  some (Block.mk o d t h p, s11)

/-- Parse a non-empty comma-separated block sequence, fuel-driven. -/
def parseBlocksCore : Nat → List Char → Option (List Block × List Char)
  | 0, _ => none
  | fuel + 1, s => do
    let (b, s1) ← parseBlock s
    if s1.head? = some ',' then do
      let (bs, s3) ← parseBlocksCore fuel s1.tail
      some (b :: bs, s3)
    else some ([b], s1)

/-- Modelled from the spec: decode the persisted file content into a candidate
chain (the role serde_json's derived `Deserialize` plays inside `Chainy::load`),
accepting the canonical encoder output including an empty chain array. -/
def parseChainy (s : List Char) : Option Chainy := do
  let s1 ← stripLit litChain s
  if s1 = [']', '\x7d'] then some ⟨[]⟩
  else do
    let (bs, s3) ← parseBlocksCore s1.length s1
    if s3 = [']', '\x7d'] then some ⟨bs⟩ else none

/-- Outcome of `Chainy::load` on raw file content. -/
inductive LoadFileRes where
  | ok (c : Chainy)
  | err (e : ChainyError)
  | decodeErr
  | panic
  deriving Repr, DecidableEq

/-- Modelled from the spec: `Chainy::load` applied to file content — decode, then
validate, returning the chain only when validation succeeds (decode failures are
the `serde_json` error path of the Rust code). -/
def load_file (content : List Char) : LoadFileRes :=
  match parseChainy content with
  | none => .decodeErr
  | some c =>
    match c.validate with
    | .ok => .ok c
    | .err _ => .err .ChainNotValid
    | .panic => .panic

/-! ### Basic lemmas about the byte-level helpers -/

theorem strBytes_append (a b : List Char) : strBytes (a ++ b) = strBytes a ++ strBytes b := by
  induction a with
  | nil => simp [strBytes]
  | cons c cs ih => simp [strBytes, ih]

theorem utf8Char_length_pos (c : Char) : 1 ≤ (utf8Char c).length := by
  unfold utf8Char
  split <;> try simp
  split <;> try simp
  split <;> simp

theorem length_le_rustLen (s : List Char) : s.length ≤ rustLen s := by
  induction s with
  | nil => simp [rustLen, strBytes]
  | cons c cs ih =>
    have h := utf8Char_length_pos c
    simp only [rustLen, strBytes, List.length_append, List.length_cons] at *
    omega

theorem hexEncode_length (l : List Nat) : (hexEncode l).length = 2 * l.length := by
  induction l with
  | nil => simp [hexEncode]
  | cons b bs ih => simp [hexEncode, ih]; ring

theorem wordBeBytes_length (w : Nat) : (wordBeBytes w).length = 4 := by
  simp [wordBeBytes]

theorem sha1_length (m : List Nat) : (sha1 m).length = 20 := by
  simp [sha1, wordBeBytes]

theorem wordBeBytes_lt (w : Nat) : ∀ b ∈ wordBeBytes w, b < 256 := by
  simp only [wordBeBytes, List.mem_cons, List.not_mem_nil, or_false]
  rintro b (rfl | rfl | rfl | rfl) <;> exact Nat.mod_lt _ (by norm_num)

theorem sha1_bytes_lt (m : List Nat) : ∀ b ∈ sha1 m, b < 256 := by
  intro b hb
  simp only [sha1, List.mem_append] at hb
  rcases hb with ((((h | h) | h) | h) | h) <;> exact wordBeBytes_lt _ _ h

theorem hexDigitChar_mem (d : Nat) (h : d < 16) :
    hexDigitChar d ∈ "0123456789abcdef".toList := by
  revert d; decide

theorem hexEncode_chars (l : List Nat) (hl : ∀ b ∈ l, b < 256) :
    ∀ ch ∈ hexEncode l, ch ∈ "0123456789abcdef".toList := by
  induction l with
  | nil => simp [hexEncode]
  | cons b bs ih =>
    intro ch hch
    have hb : b < 256 := hl b (by simp)
    simp only [hexEncode, List.mem_cons] at hch
    rcases hch with rfl | rfl | hch
    · exact hexDigitChar_mem _ (by omega)
    · exact hexDigitChar_mem _ (Nat.mod_lt _ (by norm_num))
    · exact ih (fun x hx => hl x (by simp [hx])) ch hch

/-! ### Round-trip lemmas for the modelled persistence -/

theorem stripLit_append (pat rest : List Char) : stripLit pat (pat ++ rest) = some rest := by
  induction pat with
  | nil => rfl
  | cons p ps ih => simp [stripLit, ih]

theorem decDigitChar_isDigit (d : Nat) (h : d < 10) : isDigitCh (decDigitChar d) = true := by
  revert d; decide

theorem decDigitChar_val (d : Nat) (h : d < 10) : (decDigitChar d).toNat - 48 = d := by
  revert d; decide

theorem digitsVal_concat (ds : List Char) (c : Char) :
    digitsVal (ds ++ [c]) = 10 * digitsVal ds + (c.toNat - 48) := by
  simp [digitsVal, List.foldl_append]
  ring

theorem natDecAux_spec (fuel n : Nat) (h : n < fuel) :
    natDecAux fuel n ≠ []
      ∧ (∀ c ∈ natDecAux fuel n, isDigitCh c = true)
      ∧ digitsVal (natDecAux fuel n) = n := by
  induction fuel generalizing n with
  | zero => omega
  | succ fuel ih =>
    by_cases hn : n < 10
    · rw [natDecAux, if_pos hn]
      refine ⟨by simp, ?_, ?_⟩
      · intro c hc
        rw [List.mem_singleton] at hc
        subst hc
        exact decDigitChar_isDigit n hn
      · simp [digitsVal]
        exact decDigitChar_val n hn
    · rw [natDecAux, if_neg hn]
      have hdiv : n / 10 < fuel := by omega
      obtain ⟨h1, h2, h3⟩ := ih (n / 10) hdiv
      refine ⟨by simp, ?_, ?_⟩
      · intro c hc
        rw [List.mem_append, List.mem_singleton] at hc
        rcases hc with hc | rfl
        · exact h2 c hc
        · exact decDigitChar_isDigit _ (Nat.mod_lt _ (by norm_num))
      · rw [digitsVal_concat, h3, decDigitChar_val _ (Nat.mod_lt _ (by norm_num))]
        omega

theorem natDec_spec (n : Nat) :
    natDec n ≠ [] ∧ (∀ c ∈ natDec n, isDigitCh c = true) ∧ digitsVal (natDec n) = n :=
  natDecAux_spec (n + 1) n (Nat.lt_succ_self n)

theorem takeWhile_all_append (p : Char → Bool) (ds : List Char) (c : Char) (rest : List Char)
    (hall : ∀ x ∈ ds, p x = true) (hc : p c = false) :
    (ds ++ c :: rest).takeWhile p = ds ∧ (ds ++ c :: rest).dropWhile p = c :: rest := by
  induction ds with
  | nil => simp [List.takeWhile_cons, List.dropWhile_cons, hc]
  | cons x xs ih =>
    have hx : p x = true := hall x (by simp)
    obtain ⟨h1, h2⟩ := ih (fun y hy => hall y (by simp [hy]))
    simp [List.takeWhile_cons, List.dropWhile_cons, hx, h1, h2]

theorem parseNat_natDec (n : Nat) (c : Char) (rest : List Char) (hc : isDigitCh c = false) :
    parseNat (natDec n ++ c :: rest) = some (n, c :: rest) := by
  obtain ⟨h1, h2, h3⟩ := natDec_spec n
  obtain ⟨ht, hd⟩ := takeWhile_all_append isDigitCh (natDec n) c rest h2 hc
  unfold parseNat
  rw [ht, hd]
  match hne : natDec n, h1, h3 with
  | d :: ds, _, h3 => simp [h3]

theorem hexVal_hexDigitChar (d : Nat) (h : d < 16) : hexVal (hexDigitChar d) = d := by
  revert d; decide

theorem parseStrCore_rt (s : List Char) : ∀ (fuel : Nat) (rest : List Char),
    s.length < fuel →
    parseStrCore fuel (jsonEsc s ++ '"' :: rest) = some (s, rest) := by
  induction s with
  | nil =>
    intro fuel rest h
    cases fuel with
    | zero => simp at h
    | succ f => simp [jsonEsc, parseStrCore]
  | cons c cs ih =>
    intro fuel rest h
    cases fuel with
    | zero => simp at h
    | succ f =>
      have hf : cs.length < f := by simp at h; omega
      have ihr := ih f rest hf
      have hofn : ∀ m, c.toNat = m → Char.ofNat m = c := by
        intro m hm
        rw [← hm, Char.ofNat_toNat]
      by_cases h1 : c = '"'
      · subst h1
        simp [jsonEsc, jsonEscChar, parseStrCore, ihr]
      · by_cases h2 : c = '\\'
        · subst h2
          simp [jsonEsc, jsonEscChar, parseStrCore, ihr]
        · by_cases h3 : 32 ≤ c.toNat
          · simp [jsonEsc, jsonEscChar, parseStrCore, h1, h2, h3, ihr]
          · by_cases h8 : c.toNat = 8
            · simp only [jsonEsc, jsonEscChar]
              rw [if_neg h1, if_neg h2, if_neg h3, if_pos h8]
              simp [parseStrCore, ihr, hofn 8 h8]
              exact hofn 8 h8
            · by_cases h9 : c.toNat = 9
              · simp only [jsonEsc, jsonEscChar]
                rw [if_neg h1, if_neg h2, if_neg h3, if_neg h8, if_pos h9]
                simp [parseStrCore, ihr, hofn 9 h9]
                exact hofn 9 h9
              · by_cases h10 : c.toNat = 10
                · simp only [jsonEsc, jsonEscChar]
                  rw [if_neg h1, if_neg h2, if_neg h3, if_neg h8, if_neg h9, if_pos h10]
                  simp [parseStrCore, ihr, hofn 10 h10]
                  exact hofn 10 h10
                · by_cases h12 : c.toNat = 12
                  · simp only [jsonEsc, jsonEscChar]
                    rw [if_neg h1, if_neg h2, if_neg h3, if_neg h8, if_neg h9, if_neg h10,
                      if_pos h12]
                    simp [parseStrCore, ihr, hofn 12 h12]
                    exact hofn 12 h12
                  · by_cases h13 : c.toNat = 13
                    · simp only [jsonEsc, jsonEscChar]
                      rw [if_neg h1, if_neg h2, if_neg h3, if_neg h8, if_neg h9, if_neg h10,
                        if_neg h12, if_pos h13]
                      simp [parseStrCore, ihr, hofn 13 h13]
                      exact hofn 13 h13
                    · have harg : hexVal (hexDigitChar (c.toNat / 16)) * 16
                          + hexVal (hexDigitChar (c.toNat % 16)) = c.toNat := by
                        rw [hexVal_hexDigitChar _ (by omega),
                          hexVal_hexDigitChar _ (Nat.mod_lt _ (by norm_num))]
                        omega
                      simp only [jsonEsc, jsonEscChar]
                      rw [if_neg h1, if_neg h2, if_neg h3, if_neg h8, if_neg h9, if_neg h10,
                        if_neg h12, if_neg h13]
                      simp [parseStrCore, ihr, harg]

theorem jsonEscChar_length_pos (c : Char) : 1 ≤ (jsonEscChar c).length := by
  unfold jsonEscChar
  split
  · simp
  · split
    · simp
    · split
      · simp
      · split
        · simp
        · split
          · simp
          · split
            · simp
            · split
              · simp
              · split <;> simp

theorem jsonEsc_length_ge (s : List Char) : s.length ≤ (jsonEsc s).length := by
  induction s with
  | nil => simp [jsonEsc]
  | cons c cs ih =>
    have := jsonEscChar_length_pos c
    simp only [jsonEsc, List.length_append, List.length_cons]
    omega

theorem parseBlock_encBlock (b : Block) (rest : List Char) :
    parseBlock (encBlock b ++ rest) = some (b, rest) := by
  obtain ⟨o, d, t, h, p⟩ := b
  simp only [encBlock, parseBlock, litOffset, litData, litTimestamp, litHash, litPrev,
    List.cons_append, List.append_assoc, List.nil_append]
  simp only [stripLit, if_pos, stripLit_append, List.append_eq, List.nil_append,
    Option.bind_eq_bind, Option.some_bind]
  rw [parseNat_natDec _ _ _ (by decide)]
  simp only [Option.some_bind]
  simp only [stripLit, if_pos, stripLit_append, List.append_eq, List.nil_append]
  simp only [Option.some_bind]
  rw [parseStrCore_rt d _ _ (by
    have := jsonEsc_length_ge d
    simp only [List.length_append, List.length_cons]
    omega)]
  simp only [Option.some_bind]
  simp only [stripLit, if_pos, stripLit_append, List.append_eq, List.nil_append]
  simp only [Option.some_bind]
  rw [parseNat_natDec _ _ _ (by decide)]
  simp only [Option.some_bind]
  simp only [stripLit, if_pos, stripLit_append, List.append_eq, List.nil_append]
  simp only [Option.some_bind]
  rw [parseStrCore_rt h _ _ (by
    have := jsonEsc_length_ge h
    simp only [List.length_append, List.length_cons]
    omega)]
  simp only [Option.some_bind]
  simp only [stripLit, if_pos, stripLit_append, List.append_eq, List.nil_append]
  simp only [Option.some_bind]
  rw [parseStrCore_rt p _ _ (by
    have := jsonEsc_length_ge p
    simp only [List.length_append, List.length_cons]
    omega)]
  simp only [Option.some_bind]
  simp only [stripLit, if_pos]
  rfl

theorem encBlock_shape (b : Block) : ∃ tl, encBlock b = '\x7b' :: tl := by
  simp only [encBlock, litOffset, List.cons_append]
  exact ⟨_, rfl⟩

theorem encBlock_length_pos (b : Block) : 1 ≤ (encBlock b).length := by
  obtain ⟨tl, htl⟩ := encBlock_shape b
  simp [htl]

theorem encBlocks_cons_shape (b : Block) (bs : List Block) :
    ∃ tl, encBlocks (b :: bs) = '\x7b' :: tl := by
  obtain ⟨tl, htl⟩ := encBlock_shape b
  cases bs with
  | nil => exact ⟨tl, htl⟩
  | cons b2 bs2 =>
    refine ⟨tl ++ ',' :: encBlocks (b2 :: bs2), ?_⟩
    rw [show encBlocks (b :: b2 :: bs2) = encBlock b ++ ',' :: encBlocks (b2 :: bs2) from rfl, htl]
    simp

theorem encBlocks_length_ge (b : Block) (bs : List Block) :
    bs.length + 1 ≤ (encBlocks (b :: bs)).length := by
  induction bs generalizing b with
  | nil => simpa using encBlock_length_pos b
  | cons b2 bs2 ih =>
    have h1 := encBlock_length_pos b
    have h2 := ih b2
    simp only [encBlocks, List.length_append, List.length_cons] at *
    omega

theorem parseBlocksCore_rt (bs : List Block) (b : Block) (X : List Char) :
    ∀ fuel, bs.length < fuel →
      parseBlocksCore fuel (encBlocks (b :: bs) ++ ']' :: X) = some (b :: bs, ']' :: X) := by
  induction bs generalizing b with
  | nil =>
    intro fuel hf
    cases fuel with
    | zero => simp at hf
    | succ f =>
      unfold parseBlocksCore
      rw [show encBlocks [b] = encBlock b from rfl, parseBlock_encBlock]
      simp
  | cons b2 bs2 ih =>
    intro fuel hf
    cases fuel with
    | zero => simp at hf
    | succ f =>
      have hrec := ih b2 f (by simp at hf; omega)
      unfold parseBlocksCore
      rw [show encBlocks (b :: b2 :: bs2) = encBlock b ++ ',' :: encBlocks (b2 :: bs2) from rfl]
      rw [List.append_assoc, List.cons_append, parseBlock_encBlock]
      simp only [Option.bind_eq_bind, Option.some_bind, List.head?_cons, Option.some.injEq,
        List.tail_cons]
      rw [if_pos trivial, hrec]
      rfl

theorem parseChainy_encChainy (c : Chainy) : parseChainy (encChainy c) = some c := by
  obtain ⟨l⟩ := c
  cases l with
  | nil =>
    show parseChainy (litChain ++ (encBlocks [] ++ [']', '\x7d'])) = _
    unfold parseChainy
    rw [show encBlocks [] = ([] : List Char) from rfl, List.nil_append, stripLit_append]
    simp
  | cons b bs =>
    show parseChainy (litChain ++ (encBlocks (b :: bs) ++ [']', '\x7d'])) = _
    unfold parseChainy
    rw [stripLit_append]
    obtain ⟨tl, htl⟩ := encBlocks_cons_shape b bs
    have hlen : bs.length < (encBlocks (b :: bs) ++ [']', '\x7d']).length := by
      have := encBlocks_length_ge b bs
      simp only [List.length_append, List.length_cons, List.length_nil]
      omega
    have hparse := parseBlocksCore_rt bs b ['\x7d']
      (encBlocks (b :: bs) ++ [']', '\x7d']).length hlen
    have hne : encBlocks (b :: bs) ++ [']', '\x7d'] ≠ [']', '\x7d'] := by
      intro hcon
      have h2 := congrArg List.length hcon
      rw [htl] at h2
      simp only [List.length_cons, List.length_append, List.length_nil] at h2
      omega
    simp only [Option.bind_eq_bind, Option.some_bind]
    rw [if_neg hne, hparse]
    simp

theorem load_file_encChainy (c : Chainy) (h : c.validate = .ok) :
    load_file (encChainy c) = .ok c := by
  unfold load_file
  rw [parseChainy_encChainy]
  simp [h]

/-! ### Claim theorems: digest and genesis -/

/-- C9. `calculate_hash` is a pure function of its four arguments that hashes the
decimal offset, the raw data, the decimal timestamp and the previous hash
concatenated in that order with no separators, and returns the lowercase
hexadecimal encoding of the 20 digest bytes (40 characters, all from
`0123456789abcdef`).  Determinism is inherent: the embedding is a function, just
as the Rust `calculate_hash` reads no state besides its arguments. -/
theorem c9_digest_deterministic_structure (o : Nat) (d : List Char) (t : Nat) (p : List Char) :
    calculate_hash o d t p
        = hexEncode (sha1 (strBytes (natDec o) ++ strBytes d ++ strBytes (natDec t) ++ strBytes p))
      ∧ (calculate_hash o d t p).length = 40
      ∧ ∀ ch ∈ calculate_hash o d t p, ch ∈ "0123456789abcdef".toList := by
  refine ⟨?_, ?_, ?_⟩
  · simp [calculate_hash, strBytes_append]
  · simp [calculate_hash, hexEncode_length, sha1_length]
  · exact hexEncode_chars _ (sha1_bytes_lt _)

/-! ### Lemmas about `entry` and `validate` -/

theorem entry_eq_of_ok (c : Chainy) (d : List Char) (t : Nat) (last : Block)
    (hlen : rustLen d ≤ 64) (hl : c.chain.getLast? = some last) :
    c.entry d t
      = ({ chain := c.chain ++ [Block.new (c.chain.length + 1) d last.hash t] }, .ok ()) := by
  unfold Chainy.entry
  rw [if_neg (by omega), hl]

theorem entry_ok_cases (c : Chainy) (d : List Char) (t : Nat)
    (h : (c.entry d t).2 = .ok ()) :
    rustLen d ≤ 64 ∧ ∃ last, c.chain.getLast? = some last := by
  unfold Chainy.entry at h
  by_cases hlen : rustLen d > 64
  · rw [if_pos hlen] at h
    simp at h
  · refine ⟨by omega, ?_⟩
    rw [if_neg hlen] at h
    cases hl : c.chain.getLast? with
    | none => rw [hl] at h; simp at h
    | some last => exact ⟨last, rfl⟩

theorem Block.validate_new (o : Nat) (d : List Char) (p : List Char) (t : Nat) :
    (Block.new o d p t).validate = .ok () := by
  simp [Block.new, Block.validate]

theorem validateFrom_ok_cons {p b : Block} {rest : List Block} :
    validateFrom p (b :: rest) = .ok
      ↔ b.validate = .ok () ∧ p.hash = b.previous_hash ∧ validateFrom b rest = .ok := by
  cases hv : b.validate with
  | error e => simp [validateFrom, hv]
  | ok u =>
    cases u
    by_cases hl : p.hash = b.previous_hash <;> simp [validateFrom, hv, hl]

theorem validate_cons_ok_iff (b0 : Block) (rest : List Block) :
    Chainy.validate ⟨b0 :: rest⟩ = .ok
      ↔ b0.offset = 0 ∧ b0.previous_hash = GENESIS_PREV ∧ b0.validate = .ok ()
          ∧ validateFrom b0 rest = .ok := by
  simp only [Chainy.validate]
  by_cases h1 : b0.offset = 0
  · by_cases h2 : b0.previous_hash = GENESIS_PREV
    · cases hv : b0.validate with
      | error e => simp [h1, h2, hv]
      | ok u => cases u; simp [h1, h2, hv]
    · simp [h1, h2]
  · simp [h1]

theorem getLast?_cons_getLastD (b0 : Block) (rest : List Block) :
    (b0 :: rest).getLast? = some (rest.getLastD b0) := by
  induction rest generalizing b0 with
  | nil => rfl
  | cons x xs ih => rw [List.getLast?_cons_cons, ih, List.getLastD_cons]

theorem validateFrom_append (p : Block) (l : List Block) (b : Block)
    (h : validateFrom p l = .ok) (hb : b.validate = .ok ())
    (hlink : (l.getLastD p).hash = b.previous_hash) :
    validateFrom p (l ++ [b]) = .ok := by
  induction l generalizing p with
  | nil =>
    simp only [List.nil_append]
    exact validateFrom_ok_cons.mpr ⟨hb, hlink, rfl⟩
  | cons x xs ih =>
    rw [List.cons_append, validateFrom_ok_cons]
    rw [validateFrom_ok_cons] at h
    obtain ⟨h1, h2, h3⟩ := h
    refine ⟨h1, h2, ih x h3 ?_⟩
    rwa [List.getLastD_cons] at hlink

theorem validate_entry_preserve (c : Chainy) (d : List Char) (t : Nat)
    (hok : c.validate = .ok) (hd : rustLen d ≤ 64) :
    (c.entry d t).1.validate = .ok ∧ (c.entry d t).2 = .ok () := by
  obtain ⟨l⟩ := c
  cases l with
  | nil => simp [Chainy.validate] at hok
  | cons b0 rest =>
    have hl : (b0 :: rest).getLast? = some (rest.getLastD b0) := getLast?_cons_getLastD b0 rest
    have he := entry_eq_of_ok ⟨b0 :: rest⟩ d t (rest.getLastD b0) hd hl
    rw [he]
    rw [validate_cons_ok_iff] at hok
    obtain ⟨h1, h2, h3, h4⟩ := hok
    refine ⟨?_, rfl⟩
    show Chainy.validate ⟨b0 :: (rest ++ [_])⟩ = .ok
    rw [validate_cons_ok_iff]
    exact ⟨h1, h2, h3, validateFrom_append b0 rest _ h4 (Block.validate_new _ _ _ _) rfl⟩

/-- Every chain reachable from a valid chain through length-checked entries is valid. -/
theorem applyEntries_validate (es : List (List Char × Nat)) (c : Chainy)
    (hok : c.validate = .ok) (h : ∀ p ∈ es, rustLen p.1 ≤ 64) :
    (applyEntries c es).validate = .ok := by
  induction es generalizing c with
  | nil => exact hok
  | cons e es ih =>
    obtain ⟨d, t⟩ := e
    exact ih _ (validate_entry_preserve c d t hok (h (d, t) (by simp))).1
      (fun p hp => h p (by simp [hp]))

theorem chainyNew_validate (t : Nat) : (Chainy.new t).validate = .ok := by
  simp [Chainy.new, Chainy.validate, Block.new, Block.validate, validateFrom, GENESIS_PREV]

theorem validateFrom_linked (l : List Block) (p : Block) (h : validateFrom p l = .ok) :
    linked (p :: l) := by
  induction l generalizing p with
  | nil => trivial
  | cons b rest ih =>
    rw [validateFrom_ok_cons] at h
    exact ⟨h.2.1, ih b h.2.2⟩

theorem validate_ok_linked (c : Chainy) (h : c.validate = .ok) : linked c.chain := by
  obtain ⟨l⟩ := c
  cases l with
  | nil => trivial
  | cons b0 rest =>
    rw [validate_cons_ok_iff] at h
    exact validateFrom_linked rest b0 h.2.2.2

/-! ### Claim theorems: append/validate invariants -/

/-- C5. Starting from `Chainy::new` and applying any finite sequence of `entry`
calls whose payloads pass the length check, `validate` succeeds (this applies to
every prefix of the sequence, hence after every call), and every adjacent pair of
blocks is hash-linked: each appended block's `previous_hash` is the hash of the
block that was the tail at append time. -/
theorem c5_append_then_validate (t0 : Nat) (es : List (List Char × Nat))
    (h : ∀ p ∈ es, rustLen p.1 ≤ 64) :
    (applyEntries (Chainy.new t0) es).validate = .ok
      ∧ linked (applyEntries (Chainy.new t0) es).chain := by
  have hv := applyEntries_validate es (Chainy.new t0) (chainyNew_validate t0) h
  exact ⟨hv, validate_ok_linked _ hv⟩

/-- C5 witness: a concrete instance of the append-then-validate invariant. -/
theorem c5_append_then_validate_witness :
    (applyEntries (Chainy.new 3) [("foo".toList, 5)]).validate = .ok
      ∧ linked (applyEntries (Chainy.new 3) [("foo".toList, 5)]).chain :=
  c5_append_then_validate 3 [("foo".toList, 5)] (by decide)

theorem applyEntries_offsets (es : List (List Char × Nat)) (c : Chainy) (k : Nat)
    (h : ∀ p ∈ es, rustLen p.1 ≤ 64)
    (hmap : c.chain.map Block.offset = 0 :: List.range' 2 k)
    (hlen : c.chain.length = k + 1) :
    (applyEntries c es).chain.map Block.offset = 0 :: List.range' 2 (k + es.length) := by
  induction es generalizing c k with
  | nil => simpa using hmap
  | cons e es ih =>
    obtain ⟨d, t⟩ := e
    have hne : c.chain ≠ [] := by
      intro hc
      rw [hc] at hlen
      simp at hlen
    obtain ⟨b0, rest, hc⟩ := List.exists_cons_of_ne_nil hne
    have hl : c.chain.getLast? = some (rest.getLastD b0) := by
      rw [hc]; exact getLast?_cons_getLastD b0 rest
    have he := entry_eq_of_ok c d t (rest.getLastD b0) (h (d, t) (by simp)) hl
    show (applyEntries (c.entry d t).1 es).chain.map Block.offset = _
    rw [he]
    have : (c.chain ++ [Block.new (c.chain.length + 1) d (rest.getLastD b0).hash t]).map
        Block.offset = 0 :: List.range' 2 (k + 1) := by
      rw [List.map_append, hmap, hlen, List.range'_concat]
      simp [Block.new]
      omega
    rw [ih _ (k + 1) (fun p hp => h p (by simp [hp])) this (by simp [hlen])]
    simp
    omega

/-- C4. A successful `entry` appends exactly one block whose `offset` is the chain
length before the append plus one; consequently a fresh chain after `k`
length-checked appends carries the offsets `0, 2, 3, …, k+1` in order (the value
`1` is skipped: the first appended block gets offset 2). -/
theorem c4_offset_numbering :
    (∀ (c : Chainy) (d : List Char) (t : Nat), (c.entry d t).2 = .ok () →
        ∃ b, (c.entry d t).1.chain = c.chain ++ [b] ∧ b.offset = c.chain.length + 1)
      ∧ ∀ (t0 : Nat) (es : List (List Char × Nat)), (∀ p ∈ es, rustLen p.1 ≤ 64) →
          (applyEntries (Chainy.new t0) es).chain.map Block.offset
            = 0 :: List.range' 2 es.length := by
  constructor
  · intro c d t h
    obtain ⟨hd, last, hl⟩ := entry_ok_cases c d t h
    rw [entry_eq_of_ok c d t last hd hl]
    exact ⟨_, rfl, rfl⟩
  · intro t0 es h
    simpa using applyEntries_offsets es (Chainy.new t0) 0 h (by rfl) (by rfl)

/-- C4 witness: two appends on a fresh chain give offsets `[0, 2, 3]`. -/
theorem c4_offset_numbering_witness :
    (applyEntries (Chainy.new 0) [("a".toList, 0), ("b".toList, 1)]).chain.map Block.offset
      = [0, 2, 3] :=
  (c4_offset_numbering.2 0 [("a".toList, 0), ("b".toList, 1)] (by decide)).trans (by decide)

/-- C8. A fresh chain consists of exactly one block: offset 0, data `GENESIS`,
previous hash the hard-coded constant, and hash the digest of the other four
fields; `validate` succeeds on it (for every clock reading `t`). -/
theorem c8_genesis_invariant (t : Nat) :
    (Chainy.new t).chain.length = 1
      ∧ ((Chainy.new t).chain.getD 0 dummyBlock).offset = 0
      ∧ ((Chainy.new t).chain.getD 0 dummyBlock).data = "GENESIS".toList
      ∧ ((Chainy.new t).chain.getD 0 dummyBlock).previous_hash
          = "ce02dec31ca49f3c8f149b3b931a0155121d2ca0".toList
      ∧ ((Chainy.new t).chain.getD 0 dummyBlock).hash
          = calculate_hash 0 "GENESIS".toList t
              ((Chainy.new t).chain.getD 0 dummyBlock).previous_hash
      ∧ (Chainy.new t).validate = .ok := by
  exact ⟨rfl, rfl, rfl, rfl, rfl, chainyNew_validate t⟩

/-! ### Claim theorems: length boundary, tampering, loading, persistence -/

/-- C2 counterexample to the claim as stated: 17 characters is at most 64
characters, yet `entry` fails with `DataTooLong`, because the Rust length check
counts UTF-8 bytes (`str::len`) and each of these characters occupies 4 bytes. -/
theorem c2_counterexample :
    (List.replicate 17 '😀').length ≤ 64
      ∧ ((Chainy.new 0).entry (List.replicate 17 '😀') 0).2
          = .error (.chainy .DataTooLong) := by
  constructor
  · decide
  · decide

/-- C2 amended.  `entry` never fails with `DataTooLong` when the payload is at
most 64 UTF-8 bytes; a payload of 65 characters is always more than 64 bytes, so
`entry` fails with `DataTooLong` and leaves the chain's block sequence unchanged. -/
theorem c2_length_boundary (c : Chainy) (s : List Char) (t : Nat) :
    (rustLen s ≤ 64 → (c.entry s t).2 ≠ .error (.chainy .DataTooLong))
      ∧ (s.length = 65 →
          (c.entry s t).2 = .error (.chainy .DataTooLong) ∧ (c.entry s t).1 = c) := by
  constructor
  · intro hle
    unfold Chainy.entry
    rw [if_neg (by omega)]
    cases hl : c.chain.getLast? with
    | none => simp
    | some last => simp
  · intro h65
    have hbyte : 64 < rustLen s := by
      have := length_le_rustLen s
      omega
    unfold Chainy.entry
    rw [if_pos hbyte]
    exact ⟨rfl, rfl⟩

/-- C2 witness: both halves of the amended boundary at concrete inputs. -/
theorem c2_length_boundary_witness :
    ((Chainy.new 0).entry "ok".toList 0).2 ≠ .error (.chainy .DataTooLong)
      ∧ ((Chainy.new 0).entry (List.replicate 65 'a') 0).2 = .error (.chainy .DataTooLong)
      ∧ ((Chainy.new 0).entry (List.replicate 65 'a') 0).1 = Chainy.new 0 :=
  ⟨(c2_length_boundary (Chainy.new 0) "ok".toList 0).1 (by decide),
    ((c2_length_boundary (Chainy.new 0) (List.replicate 65 'a') 0).2 (by decide)).1,
    ((c2_length_boundary (Chainy.new 0) (List.replicate 65 'a') 0).2 (by decide)).2⟩

theorem Block.validate_ok_iff (b : Block) :
    b.validate = .ok () ↔ calculate_hash b.offset b.data b.timestamp b.previous_hash = b.hash := by
  unfold Block.validate
  split <;> simp_all

theorem setHash_block_invalid (b : Block) (junk : List Char)
    (hb : b.validate = .ok ()) (hj : junk ≠ b.hash) :
    ({ b with hash := junk } : Block).validate = .error .BlockNotValid := by
  rw [Block.validate_ok_iff] at hb
  have hrfl : ({ b with hash := junk } : Block).validate
      = if calculate_hash b.offset b.data b.timestamp b.previous_hash = junk
        then Except.ok () else Except.error .BlockNotValid := rfl
  rw [hrfl, if_neg (fun hcon => hj (hcon.symm.trans hb))]

theorem validate_cons_checks (b0 : Block) (rest : List Block)
    (h1 : b0.offset = 0) (h2 : b0.previous_hash = GENESIS_PREV) (h3 : b0.validate = .ok ()) :
    Chainy.validate ⟨b0 :: rest⟩ = validateFrom b0 rest := by
  simp [Chainy.validate, h1, h2, h3]

theorem validateFrom_setHash (l : List Block) (p : Block) (i : Nat) (junk : List Char)
    (h : validateFrom p l = .ok) (hi : i < l.length)
    (hj : junk ≠ (l.getD i dummyBlock).hash) :
    validateFrom p (setHash l i junk) = .err .BlockNotValid := by
  induction l generalizing p i with
  | nil => simp at hi
  | cons b tl ih =>
    rw [validateFrom_ok_cons] at h
    obtain ⟨h1, h2, h3⟩ := h
    cases i with
    | zero =>
      have hbad := setHash_block_invalid b junk h1 (by simpa using hj)
      show validateFrom p ({ b with hash := junk } :: tl) = _
      simp [validateFrom, hbad]
    | succ j =>
      have hj2 : junk ≠ (tl.getD j dummyBlock).hash := by simpa using hj
      have hi2 : j < tl.length := by simp at hi; omega
      show validateFrom p (b :: setHash tl j junk) = _
      simp only [validateFrom, h1]
      rw [if_pos h2]
      exact ih b j h3 hi2 hj2

theorem validate_cons_blockErr (b0 : Block) (rest : List Block) (e : ChainyError)
    (h1 : b0.offset = 0) (h2 : b0.previous_hash = GENESIS_PREV)
    (h3 : b0.validate = .error e) :
    Chainy.validate ⟨b0 :: rest⟩ = .err e := by
  simp [Chainy.validate, h1, h2, h3]

/-- C1 amended.  In a valid chain, replacing the `hash` of the block at index `i`
(which has a successor) by an unrelated value makes `validate` fail — but with
`BlockNotValid` at that block's own hash check, which `Chainy::validate` runs
before the linkage comparison with the successor, not with `ChainNotValid` at
the linkage check as the claim states. -/
theorem c1_hash_mutation_detected (l : List Block) (i : Nat) (junk : List Char)
    (hok : Chainy.validate ⟨l⟩ = .ok) (hi : i + 1 < l.length)
    (hj : junk ≠ (l.getD i dummyBlock).hash) :
    Chainy.validate ⟨setHash l i junk⟩ = .err .BlockNotValid := by
  cases l with
  | nil => simp at hi
  | cons b0 rest =>
    rw [validate_cons_ok_iff] at hok
    obtain ⟨h1, h2, h3, h4⟩ := hok
    cases i with
    | zero =>
      have hbad := setHash_block_invalid b0 junk h3 (by simpa using hj)
      show Chainy.validate ⟨{ b0 with hash := junk } :: rest⟩ = _
      exact validate_cons_blockErr _ rest .BlockNotValid h1 h2 hbad
    | succ j =>
      show Chainy.validate ⟨b0 :: setHash rest j junk⟩ = _
      rw [validate_cons_checks b0 _ h1 h2 h3]
      exact validateFrom_setHash rest b0 j junk h4 (by simp at hi; omega) (by simpa using hj)

/-- C1 witness: the amended theorem applied to a concrete valid two-block chain
with the genesis hash replaced by forty `0` characters. -/
theorem c1_hash_mutation_detected_witness :
    Chainy.validate ⟨setHash exampleChain.chain 0 (List.replicate 40 '0')⟩
      = .err .BlockNotValid :=
  c1_hash_mutation_detected exampleChain.chain 0 (List.replicate 40 '0')
    (by decide) (by decide) (by decide)

/-- C1 counterexample to the claim as stated: on a concrete valid two-block chain,
replacing block 0's hash by an unrelated value (all other fields of all blocks
unchanged, in particular block 1's `previous_hash`) makes `validate` fail with
`BlockNotValid`, not with `ChainNotValid` at the linkage check. -/
theorem c1_counterexample :
    exampleChain.validate = .ok
      ∧ exampleChain.chain.length = 2
      ∧ List.replicate 40 '0' ≠ (exampleChain.chain.getD 0 dummyBlock).hash
      ∧ tamperedChain.validate = .err .BlockNotValid
      ∧ tamperedChain.validate ≠ .err .ChainNotValid := by
  refine ⟨by decide, by decide, by decide, by decide, by decide⟩

theorem blockOkb_iff (b : Block) : blockOkb b = true ↔ b.validate = .ok () := by
  unfold blockOkb
  cases hv : b.validate with
  | ok u => cases u; simp
  | error e => simp

theorem validateFrom_of_linksOkb (l : List Block) (p : Block) (h : linksOkb p l = true) :
    validateFrom p l = .ok := by
  induction l generalizing p with
  | nil => rfl
  | cons b rest ih =>
    simp only [linksOkb, Bool.and_eq_true, decide_eq_true_eq] at h
    obtain ⟨⟨hb, hl⟩, hr⟩ := h
    rw [validateFrom_ok_cons]
    exact ⟨(blockOkb_iff b).mp hb, hl, ih b hr⟩

/-- C10. `Chainy::validate` checks the `offset` field only of the block at index 0:
whenever the genesis checks, every per-block hash check and every linkage check
pass, `validate` succeeds — no condition at all is imposed on the offsets of the
blocks at index 1 and beyond (the witness accepts, and `load` therefore returns,
a chain whose second block carries offset 999). -/
theorem c10_validate_ignores_nongenesis_offsets (b0 : Block) (rest : List Block)
    (h1 : b0.offset = 0) (h2 : b0.previous_hash = GENESIS_PREV)
    (h3 : blockOkb b0 = true) (h4 : linksOkb b0 rest = true) :
    Chainy.validate ⟨b0 :: rest⟩ = .ok := by
  rw [validate_cons_checks b0 rest h1 h2 ((blockOkb_iff b0).mp h3)]
  exact validateFrom_of_linksOkb rest b0 h4

/-- C10 witness: a two-block chain whose second block has offset 999 (with its
hash computed over that offset) passes `validate` and is returned by `load`. -/
theorem c10_validate_ignores_nongenesis_offsets_witness :
    Chainy.validate weirdChain = .ok
      ∧ (weirdChain.chain.getD 1 dummyBlock).offset = 999
      ∧ load_decoded weirdChain = .ok weirdChain := by
  have hv : Chainy.validate weirdChain = .ok :=
    c10_validate_ignores_nongenesis_offsets (Block.new 0 "GENESIS".toList GENESIS_PREV 0)
      [weirdBlock] (by decide) (by decide) (by decide) (by decide)
  refine ⟨hv, by decide, ?_⟩
  unfold load_decoded
  rw [show weirdChain.validate = .ok from hv]

/-- C6. `load` hands back a chain only when `validate` succeeded on the decoded
candidate, and that chain is the decoded candidate itself; whenever validation
returns any error (including a single corrupt block's `BlockNotValid`), `load`
fails with `ChainNotValid` and no chain is returned. -/
theorem c6_load_returns_only_validated (c : Chainy) :
    (∀ c2, load_decoded c = .ok c2 → c.validate = .ok ∧ c2 = c)
      ∧ ∀ e, c.validate = .err e → load_decoded c = .err .ChainNotValid := by
  constructor
  · intro c2 h
    unfold load_decoded at h
    cases hv : c.validate with
    | ok =>
      rw [hv] at h
      refine ⟨rfl, ?_⟩
      injection h with h
      exact h.symm
    | err e => rw [hv] at h; simp at h
    | panic => rw [hv] at h; simp at h
  · intro e h
    unfold load_decoded
    rw [h]

/-- C6 witness: the ok direction on a fresh valid chain, and the error direction
on a chain whose genesis offset is 1. -/
theorem c6_load_returns_only_validated_witness :
    ((Chainy.new 0).validate = .ok ∧ Chainy.new 0 = Chainy.new 0)
      ∧ load_decoded ⟨[Block.mk 1 [] 0 [] []]⟩ = .err .ChainNotValid :=
  ⟨(c6_load_returns_only_validated (Chainy.new 0)).1 (Chainy.new 0) (by decide),
    (c6_load_returns_only_validated ⟨[Block.mk 1 [] 0 [] []]⟩).2 .ChainNotValid (by decide)⟩

/-- C3. The claim says `validate` (hence `load`) returns normally on every decoded
candidate, including an empty chain array.  The code does not: the well-formed
persisted file content `{"chain":[]}` decodes to a zero-block chain, on which
`Chainy::validate` executes `self.chain[0]` — an out-of-bounds index that aborts
the process.  This theorem evaluates the code at that failing input. -/
theorem c3_empty_chain_panics :
    parseChainy "\x7b\"chain\":[]\x7d".toList = some (Chainy.mk [])
      ∧ Chainy.validate ⟨[]⟩ = .panic
      ∧ load_decoded ⟨[]⟩ = .panic
      ∧ load_file "\x7b\"chain\":[]\x7d".toList = .panic := by
  refine ⟨by decide, rfl, rfl, by decide⟩

/-- C7. Round-trip: for every chain built from `Chainy::new` and length-checked
`entry` calls, storing (encoding to the persisted format) and loading the same
content returns a chain deep-equal to the original — same blocks, same `offset`,
`data`, `timestamp`, `hash` and `previous_hash` values, in the same order
(`Chainy` equality is field-wise equality of the whole block list). -/
theorem c7_store_load_roundtrip (t0 : Nat) (es : List (List Char × Nat))
    (h : ∀ p ∈ es, rustLen p.1 ≤ 64) :
    parseChainy (encChainy (applyEntries (Chainy.new t0) es))
        = some (applyEntries (Chainy.new t0) es)
      ∧ load_file (encChainy (applyEntries (Chainy.new t0) es))
        = .ok (applyEntries (Chainy.new t0) es) := by
  refine ⟨parseChainy_encChainy _, load_file_encChainy _ ?_⟩
  exact applyEntries_validate es (Chainy.new t0) (chainyNew_validate t0) h

/-- C7 witness: the round-trip at a concrete two-block chain. -/
theorem c7_store_load_roundtrip_witness :
    parseChainy (encChainy (applyEntries (Chainy.new 0) [("foo".toList, 0)]))
        = some (applyEntries (Chainy.new 0) [("foo".toList, 0)])
      ∧ load_file (encChainy (applyEntries (Chainy.new 0) [("foo".toList, 0)]))
        = .ok (applyEntries (Chainy.new 0) [("foo".toList, 0)]) :=
  c7_store_load_roundtrip 0 [("foo".toList, 0)] (by decide)
